import Mathlib

/-!
Verification of the fractional-knapsack relief-allocation program
(`src/project.py`).  The program's Python floats are modelled as rationals
(`ℚ`); Python's `sorted(items, key=lambda x: x.ratio, reverse=True)` is a
stable descending sort, modelled with `List.mergeSort` (which is stable) on
the comparison "left ratio at least right ratio".  Fallible constructors
(`raise ValueError`) are modelled with `Except String`.
-/

namespace Relief

/-- Embeds the dataclass `ReliefItem` of `src/project.py` (fields `name`,
`value`, `weight`). -/
structure ReliefItem where
  name : String
  value : ℚ
  weight : ℚ
deriving DecidableEq

/-- Embeds the property `ReliefItem.ratio`: `value / weight`. -/
def ReliefItem.ratio (i : ReliefItem) : ℚ := i.value / i.weight

/-- Embeds `ReliefItem.__post_init__`: construction raises
`ValueError(f"Weight must be positive for {name}")` when `weight <= 0`,
then `ValueError(f"Value must be positive for {name}")` when `value <= 0`,
and otherwise yields the item. -/
def mkReliefItem (name : String) (value weight : ℚ) : Except String ReliefItem :=
  if weight ≤ 0 then .error ("Weight must be positive for " ++ name)
  else if value ≤ 0 then .error ("Value must be positive for " ++ name)
  else .ok ⟨name, value, weight⟩

/-- Embeds the dataclass `Allocation` of `src/project.py`. -/
structure Allocation where
  name : String
  weight_allocated : ℚ
  fraction : ℚ
  value_gained : ℚ
  ratio : ℚ
deriving DecidableEq

/-- Embeds the unallocated-portion dict built in `FractionalKnapsack.solve`
(keys `name`, `weight`, `value`, `ratio`, `fraction_unallocated`). -/
structure UnallocatedPortion where
  name : String
  weight : ℚ
  value : ℚ
  ratio : ℚ
  fraction_unallocated : ℚ
deriving DecidableEq

/-- Embeds the class `FractionalKnapsack`: its only state is `capacity`. -/
structure FractionalKnapsack where
  capacity : ℚ
deriving DecidableEq

/-- Embeds `FractionalKnapsack.__init__`: raises
`ValueError("Capacity must be positive")` when `capacity <= 0`. -/
def mkFractionalKnapsack (capacity : ℚ) : Except String FractionalKnapsack :=
  if capacity ≤ 0 then .error "Capacity must be positive"
  else .ok ⟨capacity⟩

/-- The comparison used by `sorted(items, key=lambda x: x.ratio, reverse=True)`:
`a` may come before `b` iff `a.ratio ≥ b.ratio`. -/
def ratioDescLE (a b : ReliefItem) : Bool := decide (b.ratio ≤ a.ratio)

/-- Embeds `sorted(items, key=lambda x: x.ratio, reverse=True)`:
a stable sort by descending ratio (Python's `sorted` is stable and with
`reverse=True` equal-key elements keep their input order). -/
def sortByRatioDesc (l : List ReliefItem) : List ReliefItem :=
  l.mergeSort ratioDescLE

/-- Embeds the `for item in sorted_items:` loop of `FractionalKnapsack.solve`,
threading `remaining_capacity` and accumulating `total_value`, `allocations`
and `unallocated` (result lists are in processing order). -/
def solveLoop (remaining : ℚ) :
    List ReliefItem → ℚ × List Allocation × List UnallocatedPortion
  | [] => (0, [], [])
  | item :: rest =>
    if remaining ≤ 0 then
      -- item completely unallocated
      let r := solveLoop remaining rest
      (r.1, r.2.1,
        ⟨item.name, item.weight, item.value, item.ratio, 1⟩ :: r.2.2)
    else if item.weight ≤ remaining then
      -- take full item
      let r := solveLoop (remaining - item.weight) rest
      (r.1 + item.value,
        ⟨item.name, item.weight, 1, item.value, item.ratio⟩ :: r.2.1,
        r.2.2)
    else
      -- take fraction of item
      let fraction := remaining / item.weight
      let value_gained := item.value * fraction
      let r := solveLoop 0 rest
      (r.1 + value_gained,
        ⟨item.name, remaining, fraction, value_gained, item.ratio⟩ :: r.2.1,
        ⟨item.name, item.weight * (1 - fraction), item.value * (1 - fraction),
          item.ratio, 1 - fraction⟩ :: r.2.2)

/-- Embeds `FractionalKnapsack.solve`: empty input returns `(0, [], [])`
immediately; otherwise sort by descending ratio and run the greedy loop. -/
def FractionalKnapsack.solve (K : FractionalKnapsack) (items : List ReliefItem) :
    ℚ × List Allocation × List UnallocatedPortion :=
  if items = [] then (0, [], [])
  else solveLoop K.capacity (sortByRatioDesc items)

/-- The allocation emitted for a fully taken item. -/
def fullAllocOf (i : ReliefItem) : Allocation :=
  ⟨i.name, i.weight, 1, i.value, i.ratio⟩

/-- The unallocated-portion record emitted for a fully skipped item. -/
def skipUnallocOf (i : ReliefItem) : UnallocatedPortion :=
  ⟨i.name, i.weight, i.value, i.ratio, 1⟩

/-- The allocation emitted for a partially taken item at remaining
capacity `rem`. -/
def partAllocOf (i : ReliefItem) (rem : ℚ) : Allocation :=
  ⟨i.name, rem, rem / i.weight, i.value * (rem / i.weight), i.ratio⟩

/-- The unallocated-portion record emitted for a partially taken item at
remaining capacity `rem`. -/
def partUnallocOf (i : ReliefItem) (rem : ℚ) : UnallocatedPortion :=
  ⟨i.name, i.weight * (1 - rem / i.weight), i.value * (1 - rem / i.weight),
    i.ratio, 1 - rem / i.weight⟩

/-! ### Basic loop lemmas -/

/-- Once remaining capacity is non-positive, the loop only emits fully
unallocated portions and gains no value. -/
theorem solveLoop_of_nonpos {B : ℚ} (hB : B ≤ 0) :
    ∀ l : List ReliefItem, solveLoop B l = (0, [], l.map skipUnallocOf)
  | [] => by simp [solveLoop]
  | a :: t => by
    simp only [solveLoop, if_pos hB, solveLoop_of_nonpos hB t, List.map_cons]
    rfl

/-- The loop's accumulated total value is the sum of the `value_gained`
fields of the allocations it emits. -/
theorem solveLoop_fst_eq_sum (B : ℚ) (l : List ReliefItem) :
    (solveLoop B l).1 = ((solveLoop B l).2.1.map Allocation.value_gained).sum := by
  induction l generalizing B with
  | nil => simp [solveLoop]
  | cons a t ih =>
    simp only [solveLoop]
    split_ifs with h1 h2 <;>
      simp [ih, add_comm]

/-- `solve` agrees with the loop run on the sorted list, also on empty
input (the early return coincides with the loop's value on `[]`). -/
theorem solve_eq_solveLoop (K : FractionalKnapsack) (items : List ReliefItem) :
    K.solve items = solveLoop K.capacity (sortByRatioDesc items) := by
  unfold FractionalKnapsack.solve
  split_ifs with h
  · subst h; simp [sortByRatioDesc, solveLoop]
  · rfl

/-- Structure of a loop run: the processed list splits into a prefix of
fully taken items, at most one partially taken item, and a suffix of fully
skipped items; the outputs are the corresponding records and the remaining
capacity at the split is the budget minus the weight of the full prefix. -/
theorem solveLoop_structure :
    ∀ (l : List ReliefItem), (∀ i ∈ l, 0 < i.weight) → ∀ B : ℚ, 0 ≤ B →
    ∃ (full part skipped : List ReliefItem) (rem : ℚ),
      rem = B - (full.map ReliefItem.weight).sum ∧
      l = full ++ part ++ skipped ∧
      (solveLoop B l).1
        = (full.map ReliefItem.value).sum
          + (part.map fun p => p.value * (rem / p.weight)).sum ∧
      (solveLoop B l).2.1
        = full.map fullAllocOf ++ part.map (fun p => partAllocOf p rem) ∧
      (solveLoop B l).2.2
        = part.map (fun p => partUnallocOf p rem) ++ skipped.map skipUnallocOf ∧
      (full.map ReliefItem.weight).sum ≤ B ∧
      ((part = [] ∧ (skipped = [] ∨ rem = 0)) ∨
        (∃ p, part = [p] ∧ 0 < rem ∧ rem < p.weight))
  | [], _, B, hB =>
    ⟨[], [], [], B, by simp, by simp, by simp [solveLoop], by simp [solveLoop],
      by simp [solveLoop], by simpa using hB, Or.inl ⟨rfl, Or.inl rfl⟩⟩
  | a :: t, hw, B, hB => by
    by_cases hB0 : B ≤ 0
    · have hBz : B = 0 := le_antisymm hB0 hB
      refine ⟨[], [], a :: t, B, by simp, by simp,
        ?_, ?_, ?_, by simpa using hB, Or.inl ⟨rfl, Or.inr (by simpa using hBz)⟩⟩
      · rw [solveLoop_of_nonpos hB0]; simp
      · rw [solveLoop_of_nonpos hB0]; simp
      · rw [solveLoop_of_nonpos hB0]; simp
    · by_cases hw1 : a.weight ≤ B
      · have hB' : (0 : ℚ) ≤ B - a.weight := by linarith
        obtain ⟨full, part, skipped, rem, hrem, ht, h1, h2, h3, h4, h5⟩ :=
          solveLoop_structure t (fun i hi => hw i (List.mem_cons_of_mem a hi))
            (B - a.weight) hB'
        refine ⟨a :: full, part, skipped, rem, ?_, by simp [ht], ?_, ?_, ?_, ?_, h5⟩
        · simp only [List.map_cons, List.sum_cons]
          rw [hrem]; ring
        · simp only [solveLoop, if_neg hB0, if_pos hw1]
          rw [h1]
          simp only [List.map_cons, List.sum_cons]
          ring
        · simp only [solveLoop, if_neg hB0, if_pos hw1]
          rw [h2]
          simp [fullAllocOf]
        · simp only [solveLoop, if_neg hB0, if_pos hw1]
          exact h3
        · simp only [List.map_cons, List.sum_cons]
          linarith
      · have hBpos : 0 < B := lt_of_not_le hB0
        refine ⟨[], [a], t, B, by simp, by simp, ?_, ?_, ?_, by simpa using hB,
          Or.inr ⟨a, rfl, hBpos, lt_of_not_le hw1⟩⟩
        · simp only [solveLoop, if_neg hB0, if_neg hw1]
          rw [solveLoop_of_nonpos (le_refl (0 : ℚ))]
          simp [mul_comm]
        · simp only [solveLoop, if_neg hB0, if_neg hw1]
          rw [solveLoop_of_nonpos (le_refl (0 : ℚ))]
          simp [partAllocOf]
        · simp only [solveLoop, if_neg hB0, if_neg hw1]
          rw [solveLoop_of_nonpos (le_refl (0 : ℚ))]
          simp [partUnallocOf]

/-- Membership is preserved by the ratio sort. -/
theorem mem_sortByRatioDesc {i : ReliefItem} {l : List ReliefItem} :
    i ∈ sortByRatioDesc l ↔ i ∈ l :=
  List.mem_mergeSort

/-- The ratio sort permutes its input. -/
theorem sortByRatioDesc_perm (l : List ReliefItem) :
    List.Perm (sortByRatioDesc l) l :=
  List.mergeSort_perm l _

/-- Allocated weight of a loop run: exactly `min` of budget and total
item weight, for a nonnegative budget and nonnegative weights. -/
theorem solveLoop_weight_sum :
    ∀ (l : List ReliefItem), (∀ i ∈ l, 0 ≤ i.weight) → ∀ B : ℚ, 0 ≤ B →
      ((solveLoop B l).2.1.map Allocation.weight_allocated).sum
        = min B (l.map ReliefItem.weight).sum
  | [], _, B, hB => by simpa [solveLoop] using (min_eq_right hB).symm
  | a :: t, hw, B, hB => by
    have hwt : ∀ i ∈ t, 0 ≤ i.weight := fun i hi => hw i (List.mem_cons_of_mem a hi)
    have hsum : 0 ≤ (t.map ReliefItem.weight).sum := by
      apply List.sum_nonneg
      intro x hx
      obtain ⟨i, hi, rfl⟩ := List.mem_map.mp hx
      exact hwt i hi
    by_cases hB0 : B ≤ 0
    · have hBz : B = 0 := le_antisymm hB0 hB
      rw [solveLoop_of_nonpos hB0]
      have : 0 ≤ (a.weight + (t.map ReliefItem.weight).sum) :=
        add_nonneg (hw a (List.mem_cons_self a t)) hsum
      simp only [List.map_nil, List.sum_nil, List.map_cons, List.sum_cons]
      rw [hBz, min_eq_left this]
    · by_cases hw1 : a.weight ≤ B
      · simp only [solveLoop, if_neg hB0, if_pos hw1, List.map_cons, List.sum_cons]
        rw [solveLoop_weight_sum t hwt (B - a.weight) (by linarith)]
        have : B = a.weight + (B - a.weight) := by ring
        rw [this, min_add_add_left]
        ring_nf
      · simp only [solveLoop, if_neg hB0, if_neg hw1, List.map_cons, List.sum_cons]
        rw [solveLoop_of_nonpos (le_refl (0 : ℚ))]
        have hlt : B ≤ a.weight + (t.map ReliefItem.weight).sum := by
          have := lt_of_not_le hw1
          linarith
        simp [min_eq_left hlt]

/-! ### Claim theorems: construction and trivial output shape -/

/-- C4: for every solver (hence every capacity > 0 accepted at
construction), calling `solve` with an empty item list returns exactly
`(0, [], [])`. -/
theorem solve_nil (K : FractionalKnapsack) : K.solve [] = (0, [], []) := rfl

/-- C6: constructing a `FractionalKnapsack` fails with the capacity error
exactly when `capacity ≤ 0`, and succeeds (storing the capacity) exactly
when `capacity > 0`. -/
theorem mkFractionalKnapsack_spec (c : ℚ) :
    (mkFractionalKnapsack c = .error "Capacity must be positive" ↔ c ≤ 0) ∧
    (mkFractionalKnapsack c = .ok ⟨c⟩ ↔ 0 < c) := by
  unfold mkFractionalKnapsack
  constructor
  · constructor
    · intro h
      by_contra hc
      rw [if_neg hc] at h
      exact Except.noConfusion h
    · intro h; rw [if_pos h]
  · constructor
    · intro h
      by_contra hc
      rw [not_lt] at hc
      rw [if_pos hc] at h
      exact Except.noConfusion h
    · intro h; rw [if_neg (not_le.mpr h)]

/-- C7: item construction fails identifying the name and the weight when
`weight ≤ 0`; fails identifying the name and the value when `weight > 0`
and `value ≤ 0`; and succeeds whenever both are positive, with no other
validation (any name, including the empty one, is accepted). -/
theorem mkReliefItem_spec (name : String) (v w : ℚ) :
    (w ≤ 0 → mkReliefItem name v w = .error ("Weight must be positive for " ++ name)) ∧
    (0 < w → v ≤ 0 → mkReliefItem name v w = .error ("Value must be positive for " ++ name)) ∧
    (0 < w → 0 < v → mkReliefItem name v w = .ok ⟨name, v, w⟩) := by
  unfold mkReliefItem
  refine ⟨fun h => by rw [if_pos h], fun hw hv => ?_, fun hw hv => ?_⟩
  · rw [if_neg (not_le.mpr hw), if_pos hv]
  · rw [if_neg (not_le.mpr hw), if_neg (not_le.mpr hv)]

/-- C2: the allocated weight returned by `solve` sums to
`min capacity (total weight)`, and in particular never exceeds the
capacity. -/
theorem solve_weight_sum (c : ℚ) (items : List ReliefItem) (hc : 0 < c)
    (hvalid : ∀ i ∈ items, 0 < i.weight) :
    (((⟨c⟩ : FractionalKnapsack).solve items).2.1.map Allocation.weight_allocated).sum
        = min c (items.map ReliefItem.weight).sum ∧
    (((⟨c⟩ : FractionalKnapsack).solve items).2.1.map Allocation.weight_allocated).sum
        ≤ c := by
  have hsortw : ∀ i ∈ sortByRatioDesc items, 0 ≤ i.weight := fun i hi =>
    le_of_lt (hvalid i (mem_sortByRatioDesc.mp hi))
  have hsum : ((sortByRatioDesc items).map ReliefItem.weight).sum
      = (items.map ReliefItem.weight).sum :=
    ((sortByRatioDesc_perm items).map ReliefItem.weight).sum_eq
  have hmain :
      (((⟨c⟩ : FractionalKnapsack).solve items).2.1.map Allocation.weight_allocated).sum
        = min c (items.map ReliefItem.weight).sum := by
    rw [solve_eq_solveLoop, solveLoop_weight_sum _ hsortw _ (le_of_lt hc), hsum]
  exact ⟨hmain, hmain ▸ min_le_left _ _⟩

/-- C2 witness at the repository's own fractional test case. -/
theorem solve_weight_sum_witness :
    (((⟨50⟩ : FractionalKnapsack).solve
        [⟨"A", 60, 10⟩, ⟨"B", 100, 20⟩, ⟨"C", 120, 30⟩]).2.1.map
          Allocation.weight_allocated).sum
      = min 50 (([⟨"A", 60, 10⟩, ⟨"B", 100, 20⟩,
          (⟨"C", 120, 30⟩ : ReliefItem)] : List ReliefItem).map
            ReliefItem.weight).sum ∧
    (((⟨50⟩ : FractionalKnapsack).solve
        [⟨"A", 60, 10⟩, ⟨"B", 100, 20⟩, ⟨"C", 120, 30⟩]).2.1.map
          Allocation.weight_allocated).sum ≤ 50 :=
  solve_weight_sum 50 [⟨"A", 60, 10⟩, ⟨"B", 100, 20⟩, ⟨"C", 120, 30⟩]
    (by norm_num) (by decide)

/-- C3: the total value returned by `solve` equals the sum of the
`value_gained` fields over the returned allocations. -/
theorem solve_totalValue_eq_sum (K : FractionalKnapsack) (items : List ReliefItem) :
    (K.solve items).1 = ((K.solve items).2.1.map Allocation.value_gained).sum := by
  rw [solve_eq_solveLoop]
  exact solveLoop_fst_eq_sum _ _

/-- C5: a solve call partitions the sorted items into fully taken items
(an `Allocation` with `fraction = 1` and no unallocated record), at most
one partially taken item (both records, fractions summing to `1` and
weights summing to the item's weight), and fully skipped items (only an
unallocated record with `fraction_unallocated = 1` and the full original
weight and value); no item produces two allocations. -/
theorem solve_partition (c : ℚ) (items : List ReliefItem) (hc : 0 < c)
    (hvalid : ∀ i ∈ items, 0 < i.value ∧ 0 < i.weight) :
    ∃ (full part skipped : List ReliefItem) (rem : ℚ),
      sortByRatioDesc items = full ++ part ++ skipped ∧
      ((⟨c⟩ : FractionalKnapsack).solve items).2.1
        = full.map fullAllocOf ++ part.map (fun p => partAllocOf p rem) ∧
      ((⟨c⟩ : FractionalKnapsack).solve items).2.2
        = part.map (fun p => partUnallocOf p rem) ++ skipped.map skipUnallocOf ∧
      (∀ i ∈ full, (fullAllocOf i).fraction = 1) ∧
      (∀ i ∈ skipped, (skipUnallocOf i).fraction_unallocated = 1 ∧
        (skipUnallocOf i).weight = i.weight ∧ (skipUnallocOf i).value = i.value) ∧
      (part = [] ∨ ∃ p, part = [p]) ∧
      (∀ p ∈ part,
        (partAllocOf p rem).fraction + (partUnallocOf p rem).fraction_unallocated = 1 ∧
        (partAllocOf p rem).weight_allocated + (partUnallocOf p rem).weight = p.weight) ∧
      List.Subperm
        ((((⟨c⟩ : FractionalKnapsack).solve items).2.1).map Allocation.name)
        (items.map ReliefItem.name) := by
  have hw : ∀ i ∈ sortByRatioDesc items, 0 < i.weight := fun i hi =>
    (hvalid i (mem_sortByRatioDesc.mp hi)).2
  obtain ⟨full, part, skipped, rem, hrem, hsplit, hval, hallo, hunal, hwle, hcase⟩ :=
    solveLoop_structure (sortByRatioDesc items) hw c (le_of_lt hc)
  have hsolve : (⟨c⟩ : FractionalKnapsack).solve items
      = solveLoop c (sortByRatioDesc items) := solve_eq_solveLoop _ _
  refine ⟨full, part, skipped, rem, hsplit, by rw [hsolve]; exact hallo,
    by rw [hsolve]; exact hunal, ?_, ?_, ?_, ?_, ?_⟩
  · intro i _; rfl
  · intro i _; exact ⟨rfl, rfl, rfl⟩
  · rcases hcase with ⟨hp, _⟩ | ⟨p, hp, _⟩
    · exact Or.inl hp
    · exact Or.inr ⟨p, hp⟩
  · intro p hp
    have hpw : 0 < p.weight := by
      apply hw
      rw [hsplit]
      exact List.mem_append.mpr (Or.inl (List.mem_append.mpr (Or.inr hp)))
    have hne : p.weight ≠ 0 := ne_of_gt hpw
    constructor
    · show rem / p.weight + (1 - rem / p.weight) = 1
      ring
    · show rem + p.weight * (1 - rem / p.weight) = p.weight
      field_simp
  · rw [hsolve, hallo]
    have hmapname :
        ((full.map fullAllocOf ++ part.map fun p => partAllocOf p rem).map
            Allocation.name)
          = (full ++ part).map ReliefItem.name := by
      simp [List.map_append, List.map_map, Function.comp_def, fullAllocOf, partAllocOf]
    rw [hmapname]
    have hsub : List.Sublist (full ++ part) (sortByRatioDesc items) := by
      rw [hsplit]
      exact List.sublist_append_left _ _
    exact ((hsub.map ReliefItem.name).subperm).trans
      (((sortByRatioDesc_perm items).map ReliefItem.name).subperm)

/-- C5 witness at the repository's own fractional test case. -/
theorem solve_partition_witness :
    ∃ (full part skipped : List ReliefItem) (rem : ℚ),
      sortByRatioDesc [⟨"A", 60, 10⟩, ⟨"B", 100, 20⟩, ⟨"C", 120, 30⟩]
        = full ++ part ++ skipped ∧
      ((⟨50⟩ : FractionalKnapsack).solve
          [⟨"A", 60, 10⟩, ⟨"B", 100, 20⟩, ⟨"C", 120, 30⟩]).2.1
        = full.map fullAllocOf ++ part.map (fun p => partAllocOf p rem) ∧
      ((⟨50⟩ : FractionalKnapsack).solve
          [⟨"A", 60, 10⟩, ⟨"B", 100, 20⟩, ⟨"C", 120, 30⟩]).2.2
        = part.map (fun p => partUnallocOf p rem) ++ skipped.map skipUnallocOf ∧
      (∀ i ∈ full, (fullAllocOf i).fraction = 1) ∧
      (∀ i ∈ skipped, (skipUnallocOf i).fraction_unallocated = 1 ∧
        (skipUnallocOf i).weight = i.weight ∧ (skipUnallocOf i).value = i.value) ∧
      (part = [] ∨ ∃ p, part = [p]) ∧
      (∀ p ∈ part,
        (partAllocOf p rem).fraction + (partUnallocOf p rem).fraction_unallocated = 1 ∧
        (partAllocOf p rem).weight_allocated + (partUnallocOf p rem).weight = p.weight) ∧
      List.Subperm
        ((((⟨50⟩ : FractionalKnapsack).solve
            [⟨"A", 60, 10⟩, ⟨"B", 100, 20⟩, ⟨"C", 120, 30⟩]).2.1).map
          Allocation.name)
        (([⟨"A", 60, 10⟩, ⟨"B", 100, 20⟩,
            (⟨"C", 120, 30⟩ : ReliefItem)] : List ReliefItem).map
          ReliefItem.name) :=
  solve_partition 50 [⟨"A", 60, 10⟩, ⟨"B", 100, 20⟩, ⟨"C", 120, 30⟩]
    (by norm_num) (by decide)

/-- C10: every allocation returned by `solve` copies its source item's
`name` and `ratio`, its `fraction` is `weight_allocated / weight` of the
source item, and its `value_gained` is `ratio * weight_allocated`,
equivalently the source value times the fraction — in the full-take and
partial-take branches alike. -/
theorem solve_alloc_fields (c : ℚ) (items : List ReliefItem) (hc : 0 < c)
    (hvalid : ∀ i ∈ items, 0 < i.value ∧ 0 < i.weight) :
    ∀ a ∈ ((⟨c⟩ : FractionalKnapsack).solve items).2.1, ∃ i ∈ items,
      a.name = i.name ∧ a.ratio = i.ratio ∧
      a.fraction = a.weight_allocated / i.weight ∧
      a.value_gained = a.ratio * a.weight_allocated ∧
      a.value_gained = i.value * a.fraction := by
  have hw : ∀ i ∈ sortByRatioDesc items, 0 < i.weight := fun i hi =>
    (hvalid i (mem_sortByRatioDesc.mp hi)).2
  obtain ⟨full, part, skipped, rem, hrem, hsplit, hval, hallo, hunal, hwle, hcase⟩ :=
    solveLoop_structure (sortByRatioDesc items) hw c (le_of_lt hc)
  intro a ha
  rw [solve_eq_solveLoop, hallo] at ha
  have hmem : ∀ i : ReliefItem, i ∈ full ∨ i ∈ part → i ∈ items := by
    intro i hi
    apply mem_sortByRatioDesc.mp
    rw [hsplit]
    rcases hi with hi | hi
    · exact List.mem_append.mpr (Or.inl (List.mem_append.mpr (Or.inl hi)))
    · exact List.mem_append.mpr (Or.inl (List.mem_append.mpr (Or.inr hi)))
  rcases List.mem_append.mp ha with ha | ha
  · obtain ⟨i, hi, rfl⟩ := List.mem_map.mp ha
    have hii : i ∈ items := hmem i (Or.inl hi)
    have hne : i.weight ≠ 0 := ne_of_gt (hvalid i hii).2
    refine ⟨i, hii, rfl, rfl, ?_, ?_, ?_⟩
    · show (1 : ℚ) = i.weight / i.weight
      rw [div_self hne]
    · show i.value = i.ratio * i.weight
      rw [ReliefItem.ratio, div_mul_cancel₀ _ hne]
    · show i.value = i.value * 1
      rw [mul_one]
  · obtain ⟨p, hp, rfl⟩ := List.mem_map.mp ha
    have hpi : p ∈ items := hmem p (Or.inr hp)
    refine ⟨p, hpi, rfl, rfl, rfl, ?_, rfl⟩
    show p.value * (rem / p.weight) = p.ratio * rem
    rw [ReliefItem.ratio]
    ring

/-- C10 witness: the partially taken item "C" of the repository's
fractional test case. -/
theorem solve_alloc_fields_witness :
    ∃ i ∈ ([⟨"A", 60, 10⟩, ⟨"B", 100, 20⟩,
        (⟨"C", 120, 30⟩ : ReliefItem)] : List ReliefItem),
      (partAllocOf ⟨"C", 120, 30⟩ 20).name = i.name ∧
      (partAllocOf ⟨"C", 120, 30⟩ 20).ratio = i.ratio ∧
      (partAllocOf ⟨"C", 120, 30⟩ 20).fraction
        = (partAllocOf ⟨"C", 120, 30⟩ 20).weight_allocated / i.weight ∧
      (partAllocOf ⟨"C", 120, 30⟩ 20).value_gained
        = (partAllocOf ⟨"C", 120, 30⟩ 20).ratio
          * (partAllocOf ⟨"C", 120, 30⟩ 20).weight_allocated ∧
      (partAllocOf ⟨"C", 120, 30⟩ 20).value_gained
        = i.value * (partAllocOf ⟨"C", 120, 30⟩ 20).fraction :=
  solve_alloc_fields 50 [⟨"A", 60, 10⟩, ⟨"B", 100, 20⟩, ⟨"C", 120, 30⟩]
    (by norm_num) (by decide) (partAllocOf ⟨"C", 120, 30⟩ 20)
    (by
      rw [solve_eq_solveLoop]
      have hs : sortByRatioDesc [⟨"A", 60, 10⟩, ⟨"B", 100, 20⟩, ⟨"C", 120, 30⟩]
          = [⟨"A", 60, 10⟩, ⟨"B", 100, 20⟩, ⟨"C", 120, 30⟩] :=
        List.mergeSort_of_sorted
          (by norm_num [List.pairwise_cons, ratioDescLE, ReliefItem.ratio])
      rw [hs]
      norm_num [solveLoop, partAllocOf, ReliefItem.ratio])

/-- The ratio comparison is transitive. -/
theorem ratioDescLE_trans (a b c : ReliefItem) :
    ratioDescLE a b → ratioDescLE b c → ratioDescLE a c := by
  simp only [ratioDescLE, decide_eq_true_eq]
  exact fun h1 h2 => le_trans h2 h1

/-- The ratio comparison is total. -/
theorem ratioDescLE_total (a b : ReliefItem) :
    ratioDescLE a b || ratioDescLE b a := by
  simp only [ratioDescLE, Bool.or_eq_true, decide_eq_true_eq]
  exact (le_total b.ratio a.ratio)

/-- Stability of the ratio sort: the items of any fixed ratio appear in the
sorted list exactly in their input order. -/
theorem sortByRatioDesc_filter (l : List ReliefItem) (r : ℚ) :
    (sortByRatioDesc l).filter (fun i => decide (i.ratio = r))
      = l.filter (fun i => decide (i.ratio = r)) := by
  set p : ReliefItem → Bool := fun i => decide (i.ratio = r) with hp
  have hpair : (l.filter p).Pairwise (fun a b => ratioDescLE a b = true) := by
    apply List.pairwise_of_forall_mem_list
    intro a ha b hb
    have ha' := List.of_mem_filter ha
    have hb' := List.of_mem_filter hb
    rw [hp] at ha' hb'
    simp only [decide_eq_true_eq] at ha' hb'
    simp only [ratioDescLE, decide_eq_true_eq, ha', hb', le_refl]
  have hsub : List.Sublist (l.filter p) (sortByRatioDesc l) :=
    List.sublist_mergeSort ratioDescLE_trans ratioDescLE_total hpair
      (List.filter_sublist l)
  have hsub2 : List.Sublist (l.filter p) ((sortByRatioDesc l).filter p) := by
    have := hsub.filter p
    rwa [List.filter_filter, show (fun a => p a && p a) = p from by
      funext a; exact Bool.and_self _] at this
  have hperm : List.Perm ((sortByRatioDesc l).filter p) (l.filter p) :=
    (sortByRatioDesc_perm l).filter p
  exact (hsub2.eq_of_length hperm.length_eq.symm).symm

/-- C8: equal-ratio items keep their relative input order in both output
lists — the names of the ratio-`r` allocations (resp. unallocated
portions) form an order-preserving subsequence of the names of the
ratio-`r` input items. -/
theorem solve_stable (c : ℚ) (items : List ReliefItem) (hc : 0 < c)
    (hvalid : ∀ i ∈ items, 0 < i.weight) (r : ℚ) :
    List.Sublist
      (((((⟨c⟩ : FractionalKnapsack).solve items).2.1).filter
          (fun a => decide (a.ratio = r))).map Allocation.name)
      ((items.filter (fun i => decide (i.ratio = r))).map ReliefItem.name) ∧
    List.Sublist
      (((((⟨c⟩ : FractionalKnapsack).solve items).2.2).filter
          (fun u => decide (u.ratio = r))).map UnallocatedPortion.name)
      ((items.filter (fun i => decide (i.ratio = r))).map ReliefItem.name) := by
  have hw : ∀ i ∈ sortByRatioDesc items, 0 < i.weight := fun i hi =>
    hvalid i (mem_sortByRatioDesc.mp hi)
  obtain ⟨full, part, skipped, rem, hrem, hsplit, hval, hallo, hunal, hwle, hcase⟩ :=
    solveLoop_structure (sortByRatioDesc items) hw c (le_of_lt hc)
  set pI : ReliefItem → Bool := fun i => decide (i.ratio = r) with hpI
  constructor
  · rw [solve_eq_solveLoop, hallo]
    have h1 : (full.map fullAllocOf).filter (fun a => decide (a.ratio = r))
        = (full.filter pI).map fullAllocOf := by
      rw [List.filter_map]; rfl
    have h2 : (part.map fun p => partAllocOf p rem).filter
          (fun a => decide (a.ratio = r))
        = (part.filter pI).map fun p => partAllocOf p rem := by
      rw [List.filter_map]; rfl
    rw [List.filter_append, h1, h2]
    have hname : ((full.filter pI).map fullAllocOf
          ++ (part.filter pI).map fun p => partAllocOf p rem).map Allocation.name
        = ((full ++ part).filter pI).map ReliefItem.name := by
      simp [List.map_map, Function.comp_def, fullAllocOf, partAllocOf,
        List.filter_append]
    rw [hname, ← sortByRatioDesc_filter items r]
    apply List.Sublist.map
    apply List.Sublist.filter
    rw [hsplit]
    exact List.sublist_append_left _ _
  · rw [solve_eq_solveLoop, hunal]
    have h1 : (part.map fun p => partUnallocOf p rem).filter
          (fun u => decide (u.ratio = r))
        = (part.filter pI).map fun p => partUnallocOf p rem := by
      rw [List.filter_map]; rfl
    have h2 : (skipped.map skipUnallocOf).filter (fun u => decide (u.ratio = r))
        = (skipped.filter pI).map skipUnallocOf := by
      rw [List.filter_map]; rfl
    rw [List.filter_append, h1, h2]
    have hname : ((part.filter pI).map (fun p => partUnallocOf p rem)
          ++ (skipped.filter pI).map skipUnallocOf).map UnallocatedPortion.name
        = ((part ++ skipped).filter pI).map ReliefItem.name := by
      simp [List.map_map, Function.comp_def, partUnallocOf, skipUnallocOf,
        List.filter_append]
    rw [hname, ← sortByRatioDesc_filter items r]
    apply List.Sublist.map
    apply List.Sublist.filter
    rw [hsplit, List.append_assoc]
    exact List.sublist_append_right _ _

/-- C8 witness: items "X" and "Y" share ratio 2; their order is kept in
both outputs. -/
theorem solve_stable_witness :
    List.Sublist
      (((((⟨6⟩ : FractionalKnapsack).solve
            [⟨"X", 10, 5⟩, ⟨"Y", 4, 2⟩, ⟨"Z", 9, 3⟩]).2.1).filter
          (fun a => decide (a.ratio = 2))).map Allocation.name)
      ((([⟨"X", 10, 5⟩, ⟨"Y", 4, 2⟩,
          (⟨"Z", 9, 3⟩ : ReliefItem)] : List ReliefItem).filter
            (fun i => decide (i.ratio = 2))).map ReliefItem.name) ∧
    List.Sublist
      (((((⟨6⟩ : FractionalKnapsack).solve
            [⟨"X", 10, 5⟩, ⟨"Y", 4, 2⟩, ⟨"Z", 9, 3⟩]).2.2).filter
          (fun u => decide (u.ratio = 2))).map UnallocatedPortion.name)
      ((([⟨"X", 10, 5⟩, ⟨"Y", 4, 2⟩,
          (⟨"Z", 9, 3⟩ : ReliefItem)] : List ReliefItem).filter
            (fun i => decide (i.ratio = 2))).map ReliefItem.name) :=
  solve_stable 6 [⟨"X", 10, 5⟩, ⟨"Y", 4, 2⟩, ⟨"Z", 9, 3⟩]
    (by norm_num) (by decide) 2

/-- Embeds `solve` with the caller's `items` list threaded through the
call as mutable state: `sorted(items, ...)` allocates a fresh list (it
does not reorder the caller's list) and the loop only reads item fields,
so the translation of each statement leaves the threaded list untouched
and returns it alongside the result. -/
def FractionalKnapsack.solveTracked (K : FractionalKnapsack)
    (items : List ReliefItem) :
    (ℚ × List Allocation × List UnallocatedPortion) × List ReliefItem :=
  if items = [] then ((0, [], []), items)
  else
    let sorted_items := sortByRatioDesc items
    (solveLoop K.capacity sorted_items, items)

/-- C9: a solve call leaves the caller's item list exactly as it was
(same length, order and elements) and returns the same result as the pure
`solve`; `solve` itself is a Lean function, hence a pure function of its
inputs. -/
theorem solveTracked_pure (K : FractionalKnapsack) (items : List ReliefItem) :
    (K.solveTracked items).2 = items ∧
    (K.solveTracked items).1 = K.solve items := by
  unfold FractionalKnapsack.solveTracked FractionalKnapsack.solve
  split_ifs <;> exact ⟨rfl, rfl⟩

/-! ### Optimality of the greedy pass (claim C1) -/

/-- Total weight consumed by a fractional assignment, presented as a list
of item/fraction pairs. -/
def allocWeight (pl : List (ReliefItem × ℚ)) : ℚ :=
  (pl.map fun q => q.2 * q.1.weight).sum

/-- Total value captured by a fractional assignment. -/
def allocValue (pl : List (ReliefItem × ℚ)) : ℚ :=
  (pl.map fun q => q.2 * q.1.value).sum

theorem allocWeight_nonneg {pl : List (ReliefItem × ℚ)}
    (h : ∀ q ∈ pl, 0 ≤ q.1.weight ∧ 0 ≤ q.2) : 0 ≤ allocWeight pl := by
  apply List.sum_nonneg
  intro x hx
  obtain ⟨q, hq, rfl⟩ := List.mem_map.mp hx
  exact mul_nonneg (h q hq).2 (h q hq).1

/-- Any assignment whose items all have ratio at most `r` captures at most
`r` times the weight it consumes. -/
theorem allocValue_le (r : ℚ) :
    ∀ pl : List (ReliefItem × ℚ),
      (∀ q ∈ pl, 0 < q.1.weight ∧ 0 ≤ q.2 ∧ q.1.ratio ≤ r) →
      allocValue pl ≤ r * allocWeight pl
  | [], _ => by simp [allocValue, allocWeight]
  | (a, x) :: pt, h => by
    obtain ⟨hw, hx, hr⟩ := h (a, x) (List.mem_cons_self _ _)
    have ih := allocValue_le r pt fun q hq => h q (List.mem_cons_of_mem _ hq)
    have hv : a.value = a.ratio * a.weight := by
      rw [ReliefItem.ratio, div_mul_cancel₀ _ (ne_of_gt hw)]
    have h1 : x * a.value ≤ x * (r * a.weight) := by
      apply mul_le_mul_of_nonneg_left _ hx
      rw [hv]
      exact mul_le_mul_of_nonneg_right hr (le_of_lt hw)
    have e1 : r * allocWeight ((a, x) :: pt)
        = x * (r * a.weight) + r * allocWeight pt := by
      simp only [allocWeight, List.map_cons, List.sum_cons]
      ring
    have e2 : allocValue ((a, x) :: pt) = x * a.value + allocValue pt := by
      simp [allocValue]
    rw [e1, e2]
    linarith

/-- The greedy loop's value is at most `B * r` when every ratio is at
most `r`. -/
theorem solveLoop_fst_le (r : ℚ) (hr : 0 ≤ r) :
    ∀ l : List ReliefItem, (∀ i ∈ l, 0 < i.weight ∧ i.ratio ≤ r) →
      ∀ B : ℚ, 0 ≤ B → (solveLoop B l).1 ≤ B * r
  | [], _, B, hB => by
    simp only [solveLoop]
    exact mul_nonneg hB hr
  | a :: t, h, B, hB => by
    obtain ⟨hw, hra⟩ := h a (List.mem_cons_self _ _)
    have ht := fun i hi => h i (List.mem_cons_of_mem a hi)
    have hv : a.value = a.ratio * a.weight := by
      rw [ReliefItem.ratio, div_mul_cancel₀ _ (ne_of_gt hw)]
    by_cases hB0 : B ≤ 0
    · rw [solveLoop_of_nonpos hB0]
      exact mul_nonneg hB hr
    · by_cases hw1 : a.weight ≤ B
      · have ih := solveLoop_fst_le r hr t ht (B - a.weight) (by linarith)
        simp only [solveLoop, if_neg hB0, if_pos hw1]
        have hmul : a.ratio * a.weight ≤ r * a.weight :=
          mul_le_mul_of_nonneg_right hra (le_of_lt hw)
        have e1 : B * r = (B - a.weight) * r + r * a.weight := by ring
        linarith
      · simp only [solveLoop, if_neg hB0, if_neg hw1]
        rw [solveLoop_of_nonpos (le_refl (0 : ℚ))]
        have e1 : a.value * (B / a.weight) = a.ratio * B := by
          rw [ReliefItem.ratio]
          ring
        have : a.ratio * B ≤ r * B :=
          mul_le_mul_of_nonneg_right hra hB
        simp only [e1]
        linarith [this]

/-- Lipschitz bound for the greedy value in the budget: enlarging the
budget of a descending-ratio list whose ratios are at most `r` gains at
most `r` per unit of budget. -/
theorem solveLoop_fst_lipschitz (r : ℚ) (hr : 0 ≤ r) :
    ∀ l : List ReliefItem,
      l.Pairwise (fun a b => b.ratio ≤ a.ratio) →
      (∀ i ∈ l, 0 < i.value ∧ 0 < i.weight ∧ i.ratio ≤ r) →
      ∀ B₁ B₂ : ℚ, 0 ≤ B₁ → B₁ ≤ B₂ →
      (solveLoop B₂ l).1 ≤ (solveLoop B₁ l).1 + (B₂ - B₁) * r
  | [], _, _, B₁, B₂, hB₁, hB₁₂ => by
    simp only [solveLoop]
    have : 0 ≤ (B₂ - B₁) * r := mul_nonneg (by linarith) hr
    linarith
  | a :: t, hpair, h, B₁, B₂, hB₁, hB₁₂ => by
    obtain ⟨hv, hw, hra⟩ := h a (List.mem_cons_self _ _)
    have ht := fun i hi => h i (List.mem_cons_of_mem a hi)
    have hta : ∀ b ∈ t, b.ratio ≤ a.ratio := (List.pairwise_cons.mp hpair).1
    have htp := (List.pairwise_cons.mp hpair).2
    have hr₀ : 0 < a.ratio := div_pos hv hw
    have hval : a.value = a.ratio * a.weight := by
      rw [ReliefItem.ratio, div_mul_cancel₀ _ (ne_of_gt hw)]
    by_cases hB₂0 : B₂ ≤ 0
    · have h1 : B₁ ≤ 0 := le_trans hB₁₂ hB₂0
      rw [solveLoop_of_nonpos hB₂0, solveLoop_of_nonpos h1]
      have : 0 ≤ (B₂ - B₁) * r := mul_nonneg (by linarith) hr
      linarith
    · by_cases hB₁0 : B₁ ≤ 0
      · have hB₁z : B₁ = 0 := le_antisymm hB₁0 hB₁
        rw [solveLoop_of_nonpos hB₁0]
        have hb := solveLoop_fst_le r hr (a :: t)
          (fun i hi => ⟨(h i hi).2.1, (h i hi).2.2⟩) B₂ (by linarith)
        simp only [hB₁z]
        linarith
      · have hB₁p : 0 < B₁ := lt_of_not_le hB₁0
        by_cases hw1 : a.weight ≤ B₁
        · have ih := solveLoop_fst_lipschitz r hr t htp ht
            (B₁ - a.weight) (B₂ - a.weight) (by linarith) (by linarith)
          simp only [solveLoop, if_neg hB₁0, if_neg hB₂0,
            if_pos hw1, if_pos (le_trans hw1 hB₁₂)]
          have e1 : (B₂ - a.weight - (B₁ - a.weight)) * r = (B₂ - B₁) * r := by
            ring
          linarith
        · by_cases hw2 : a.weight ≤ B₂
          · have hb := solveLoop_fst_le a.ratio (le_of_lt hr₀) t
              (fun i hi => ⟨(ht i hi).2.1, hta i hi⟩)
              (B₂ - a.weight) (by linarith)
            simp only [solveLoop, if_neg hB₁0, if_neg hB₂0, if_pos hw2,
              if_neg hw1]
            rw [solveLoop_of_nonpos (le_refl (0 : ℚ))]
            have e1 : a.value * (B₁ / a.weight) = a.ratio * B₁ := by
              rw [ReliefItem.ratio]
              ring
            have e2 : (B₂ - a.weight) * a.ratio + a.ratio * a.weight
                = B₂ * a.ratio := by ring
            have e3 : B₂ * a.ratio = B₁ * a.ratio + (B₂ - B₁) * a.ratio := by
              ring
            have e4 : (B₂ - B₁) * a.ratio ≤ (B₂ - B₁) * r :=
              mul_le_mul_of_nonneg_left hra (by linarith)
            simp only [e1]
            linarith
          · simp only [solveLoop, if_neg hB₁0, if_neg hB₂0, if_neg hw1,
              if_neg hw2]
            rw [solveLoop_of_nonpos (le_refl (0 : ℚ))]
            have e1 : a.value * (B₂ / a.weight) - a.value * (B₁ / a.weight)
                = (B₂ - B₁) * a.ratio := by
              rw [ReliefItem.ratio]
              field_simp
              ring
            have e4 : (B₂ - B₁) * a.ratio ≤ (B₂ - B₁) * r :=
              mul_le_mul_of_nonneg_left hra (by linarith)
            linarith

/-- The greedy loop on a descending-ratio list dominates every feasible
fractional assignment of those items. -/
theorem solveLoop_ge_feasible :
    ∀ pl : List (ReliefItem × ℚ),
      (pl.map Prod.fst).Pairwise (fun a b => b.ratio ≤ a.ratio) →
      (∀ q ∈ pl, 0 < q.1.value ∧ 0 < q.1.weight ∧ 0 ≤ q.2 ∧ q.2 ≤ 1) →
      ∀ B : ℚ, 0 ≤ B → allocWeight pl ≤ B →
      allocValue pl ≤ (solveLoop B (pl.map Prod.fst)).1
  | [], _, _, B, _, _ => by simp [allocValue, solveLoop]
  | (a, x) :: pt, hpair, h, B, hB, hW => by
    obtain ⟨hv, hw, hx0, hx1⟩ := h (a, x) (List.mem_cons_self _ _)
    have ht := fun q hq => h q (List.mem_cons_of_mem _ hq)
    simp only [List.map_cons] at hpair ⊢
    have hta : ∀ b ∈ pt.map Prod.fst, b.ratio ≤ a.ratio :=
      (List.pairwise_cons.mp hpair).1
    have htp := (List.pairwise_cons.mp hpair).2
    have hr₀ : 0 < a.ratio := div_pos hv hw
    have hval : a.value = a.ratio * a.weight := by
      rw [ReliefItem.ratio, div_mul_cancel₀ _ (ne_of_gt hw)]
    have hWc : x * a.weight + allocWeight pt = allocWeight ((a, x) :: pt) := by
      simp [allocWeight]
    have hWt : 0 ≤ allocWeight pt :=
      allocWeight_nonneg fun q hq => ⟨le_of_lt (ht q hq).2.1, (ht q hq).2.2.1⟩
    have hVc : allocValue ((a, x) :: pt) = x * a.value + allocValue pt := by
      simp [allocValue]
    have hbound : ∀ q ∈ (a, x) :: pt,
        0 < q.1.weight ∧ 0 ≤ q.2 ∧ q.1.ratio ≤ a.ratio := by
      intro q hq
      rcases List.mem_cons.mp hq with rfl | hq'
      · exact ⟨hw, hx0, le_refl _⟩
      · exact ⟨(ht q hq').2.1, (ht q hq').2.2.1,
          hta q.1 (List.mem_map_of_mem Prod.fst hq')⟩
    rw [← hWc] at hW
    by_cases hB0 : B ≤ 0
    · rw [solveLoop_of_nonpos hB0]
      show allocValue ((a, x) :: pt) ≤ 0
      have h1 := allocValue_le a.ratio ((a, x) :: pt) hbound
      have h2 : a.ratio * allocWeight ((a, x) :: pt) ≤ a.ratio * B :=
        mul_le_mul_of_nonneg_left (by rw [← hWc]; exact hW) (le_of_lt hr₀)
      have h3 : a.ratio * B ≤ 0 := by
        rcases le_antisymm hB0 hB with rfl
        simp
      linarith
    · by_cases hw1 : a.weight ≤ B
      · have hxw : x * a.weight ≤ a.weight := by
          nlinarith
        have hBx : allocWeight pt ≤ B - x * a.weight := by linarith
        have hB2 : (0 : ℚ) ≤ B - x * a.weight := le_trans hWt hBx
        have ih := solveLoop_ge_feasible pt htp ht (B - x * a.weight) hB2 hBx
        have hlip := solveLoop_fst_lipschitz a.ratio (le_of_lt hr₀)
          (pt.map Prod.fst) htp
          (fun i hi => ?_)
          (B - a.weight) (B - x * a.weight) (by linarith) (by linarith)
        · simp only [solveLoop, if_neg hB0, if_pos hw1]
          have e1 : (B - x * a.weight - (B - a.weight)) * a.ratio
              = (1 - x) * (a.ratio * a.weight) := by ring
          rw [e1, ← hval] at hlip
          rw [hVc]
          linarith
        · obtain ⟨q, hq, rfl⟩ := List.mem_map.mp hi
          exact ⟨(ht q hq).1, (ht q hq).2.1, hta q.1 (List.mem_map_of_mem _ hq)⟩
      · simp only [solveLoop, if_neg hB0, if_neg hw1]
        rw [solveLoop_of_nonpos (le_refl (0 : ℚ))]
        have h1 := allocValue_le a.ratio ((a, x) :: pt) hbound
        have h2 : a.ratio * allocWeight ((a, x) :: pt) ≤ a.ratio * B :=
          mul_le_mul_of_nonneg_left (by rw [← hWc]; exact hW) (le_of_lt hr₀)
        have e1 : a.value * (B / a.weight) = a.ratio * B := by
          rw [ReliefItem.ratio]
          ring
        simp only [e1]
        linarith

/-- Fractions assigned to the items of one list can be transported along a
permutation of the items: the permuted pair list carries the same
multiset of (item, fraction) pairs. -/
theorem exists_pairlist_of_perm :
    ∀ (l₂ : List ReliefItem) (pl : List (ReliefItem × ℚ)),
      List.Perm (pl.map Prod.fst) l₂ →
      ∃ pl₂ : List (ReliefItem × ℚ),
        pl₂.map Prod.fst = l₂ ∧ List.Perm pl₂ pl
  | [], pl, h => by
    have h1 : pl.map Prod.fst = [] := h.eq_nil
    have h2 : pl = [] := by
      cases pl with
      | nil => rfl
      | cons q t => simp at h1
    exact ⟨[], rfl, by rw [h2]⟩
  | b :: t, pl, h => by
    have hb : b ∈ pl.map Prod.fst := h.mem_iff.mpr (List.mem_cons_self b t)
    obtain ⟨q, hq, hqb⟩ := List.mem_map.mp hb
    obtain ⟨s, t₂, rfl⟩ := List.append_of_mem hq
    have hperm : List.Perm (s ++ q :: t₂) (q :: (s ++ t₂)) := List.perm_middle
    have h2 : List.Perm ((s ++ t₂).map Prod.fst) t := by
      have h3 := hperm.map Prod.fst
      rw [List.map_cons, hqb] at h3
      exact (h3.symm.trans h).cons_inv
    obtain ⟨pl₂, hmap, hp⟩ := exists_pairlist_of_perm t (s ++ t₂) h2
    exact ⟨q :: pl₂, by simp [hmap, hqb], (hp.cons q).trans hperm.symm⟩

/-- The sorted working list is pairwise descending in ratio. -/
theorem sortByRatioDesc_pairwise (l : List ReliefItem) :
    (sortByRatioDesc l).Pairwise fun a b => b.ratio ≤ a.ratio := by
  have h := List.sorted_mergeSort ratioDescLE_trans ratioDescLE_total l
  exact h.imp fun hab => by
    simpa [ratioDescLE, decide_eq_true_eq] using hab

theorem zip_map_fst_snd_eq :
    ∀ l : List (ReliefItem × ℚ), (l.map Prod.fst).zip (l.map Prod.snd) = l
  | [] => rfl
  | q :: t => by simp [zip_map_fst_snd_eq t]

theorem allocWeight_append (l₁ l₂ : List (ReliefItem × ℚ)) :
    allocWeight (l₁ ++ l₂) = allocWeight l₁ + allocWeight l₂ := by
  simp [allocWeight]

theorem allocValue_append (l₁ l₂ : List (ReliefItem × ℚ)) :
    allocValue (l₁ ++ l₂) = allocValue l₁ + allocValue l₂ := by
  simp [allocValue]

theorem sum_map_zero_const :
    ∀ l : List ReliefItem, (l.map fun _ => (0 : ℚ)).sum = 0
  | [] => rfl
  | _ :: t => by simp [sum_map_zero_const t]

theorem allocWeight_ones (l : List ReliefItem) :
    allocWeight (l.map fun i => (i, (1 : ℚ))) = (l.map ReliefItem.weight).sum := by
  simp [allocWeight, List.map_map, Function.comp_def]

theorem allocValue_ones (l : List ReliefItem) :
    allocValue (l.map fun i => (i, (1 : ℚ))) = (l.map ReliefItem.value).sum := by
  simp [allocValue, List.map_map, Function.comp_def]

theorem allocWeight_zeros (l : List ReliefItem) :
    allocWeight (l.map fun i => (i, (0 : ℚ))) = 0 := by
  simp only [allocWeight, List.map_map, Function.comp_def, zero_mul]
  exact sum_map_zero_const l

theorem allocValue_zeros (l : List ReliefItem) :
    allocValue (l.map fun i => (i, (0 : ℚ))) = 0 := by
  simp only [allocValue, List.map_map, Function.comp_def, zero_mul]
  exact sum_map_zero_const l

/-- A feasible assignment of the sorted items yields a feasible assignment
of the caller's items with the same weight and value. -/
theorem exists_assignment_of_pairlist (c : ℚ) (items : List ReliefItem)
    (plS : List (ReliefItem × ℚ))
    (hmapS : plS.map Prod.fst = sortByRatioDesc items)
    (hbS : ∀ q ∈ plS, 0 ≤ q.2 ∧ q.2 ≤ 1)
    (hWS : allocWeight plS ≤ c)
    (hVS : allocValue plS = (solveLoop c (sortByRatioDesc items)).1) :
    ∃ xs : List ℚ, xs.length = items.length ∧
      (∀ q ∈ items.zip xs, 0 ≤ q.2 ∧ q.2 ≤ 1) ∧
      ((items.zip xs).map fun q => q.2 * q.1.weight).sum ≤ c ∧
      ((items.zip xs).map fun q => q.2 * q.1.value).sum
        = (solveLoop c (sortByRatioDesc items)).1 := by
  have hperm : List.Perm (plS.map Prod.fst) items := by
    rw [hmapS]; exact sortByRatioDesc_perm items
  obtain ⟨plI, hmapI, hpI⟩ := exists_pairlist_of_perm items plS hperm
  have hzip : items.zip (plI.map Prod.snd) = plI := by
    rw [← hmapI]; exact zip_map_fst_snd_eq plI
  refine ⟨plI.map Prod.snd, ?_, ?_, ?_, ?_⟩
  · rw [List.length_map, ← hmapI, List.length_map]
  · rw [hzip]
    intro q hq
    exact hbS q (hpI.subset hq)
  · rw [hzip]
    show allocWeight plI ≤ c
    calc allocWeight plI = allocWeight plS := (hpI.map _).sum_eq
      _ ≤ c := hWS
  · rw [hzip]
    show allocValue plI = _
    calc allocValue plI = allocValue plS := (hpI.map _).sum_eq
      _ = _ := hVS

/-- C1: `solve`'s total value is the maximum achievable under fractional
splitting: every per-item fraction assignment in `[0, 1]` whose weighted
sum stays within the capacity captures at most the returned total, and the
returned total is itself achieved by such an assignment. -/
theorem solve_optimal (c : ℚ) (items : List ReliefItem) (hc : 0 < c)
    (hvalid : ∀ i ∈ items, 0 < i.value ∧ 0 < i.weight) :
    (∀ xs : List ℚ, xs.length = items.length →
        (∀ q ∈ items.zip xs, 0 ≤ q.2 ∧ q.2 ≤ 1) →
        ((items.zip xs).map fun q => q.2 * q.1.weight).sum ≤ c →
        ((items.zip xs).map fun q => q.2 * q.1.value).sum
          ≤ ((⟨c⟩ : FractionalKnapsack).solve items).1) ∧
    (∃ xs : List ℚ, xs.length = items.length ∧
        (∀ q ∈ items.zip xs, 0 ≤ q.2 ∧ q.2 ≤ 1) ∧
        ((items.zip xs).map fun q => q.2 * q.1.weight).sum ≤ c ∧
        ((items.zip xs).map fun q => q.2 * q.1.value).sum
          = ((⟨c⟩ : FractionalKnapsack).solve items).1) := by
  constructor
  · intro xs hlen hbounds hwsum
    have hmapfst : (items.zip xs).map Prod.fst = items :=
      List.map_fst_zip items xs (le_of_eq hlen.symm)
    have hperm2 : List.Perm ((items.zip xs).map Prod.fst) (sortByRatioDesc items) := by
      rw [hmapfst]; exact (sortByRatioDesc_perm items).symm
    obtain ⟨pl₂, hmap2, hp⟩ := exists_pairlist_of_perm _ _ hperm2
    have hq2 : ∀ q ∈ pl₂, 0 < q.1.value ∧ 0 < q.1.weight ∧ 0 ≤ q.2 ∧ q.2 ≤ 1 := by
      intro q hq
      have hqpl : q ∈ items.zip xs := hp.subset hq
      obtain ⟨i, x⟩ := q
      have hmem := List.of_mem_zip hqpl
      exact ⟨(hvalid i hmem.1).1, (hvalid i hmem.1).2,
        (hbounds (i, x) hqpl).1, (hbounds (i, x) hqpl).2⟩
    have hVeq : allocValue pl₂ = allocValue (items.zip xs) := by
      unfold allocValue
      exact (hp.map _).sum_eq
    have hWeq : allocWeight pl₂ = allocWeight (items.zip xs) := by
      unfold allocWeight
      exact (hp.map _).sum_eq
    have hmain := solveLoop_ge_feasible pl₂
      (by rw [hmap2]; exact sortByRatioDesc_pairwise items) hq2 c (le_of_lt hc)
      (by
        show allocWeight pl₂ ≤ c
        calc allocWeight pl₂ = allocWeight (items.zip xs) := hWeq
          _ ≤ c := hwsum)
    rw [hmap2] at hmain
    rw [solve_eq_solveLoop]
    calc ((items.zip xs).map fun q => q.2 * q.1.value).sum
        = allocValue pl₂ := hVeq.symm
      _ ≤ _ := hmain
  · have hw : ∀ i ∈ sortByRatioDesc items, 0 < i.weight := fun i hi =>
      (hvalid i (mem_sortByRatioDesc.mp hi)).2
    obtain ⟨full, part, skipped, rem, hrem, hsplit, hval, hallo, hunal, hwle, hcase⟩ :=
      solveLoop_structure (sortByRatioDesc items) hw c (le_of_lt hc)
    rw [solve_eq_solveLoop]
    rcases hcase with ⟨hpart, _⟩ | ⟨p, hpart, hrpos, hrlt⟩
    · subst hpart
      apply exists_assignment_of_pairlist c items
        ((full.map fun i => (i, (1 : ℚ))) ++ (skipped.map fun i => (i, (0 : ℚ))))
      · rw [hsplit]
        simp [List.map_map, Function.comp_def]
      · intro q hq
        rcases List.mem_append.mp hq with hq | hq
        · obtain ⟨i, _, rfl⟩ := List.mem_map.mp hq
          norm_num
        · obtain ⟨i, _, rfl⟩ := List.mem_map.mp hq
          norm_num
      · rw [allocWeight_append, allocWeight_ones, allocWeight_zeros]
        simpa using hwle
      · rw [allocValue_append, allocValue_ones, allocValue_zeros, hval]
        simp
    · subst hpart
      have hpmem : p ∈ sortByRatioDesc items := by
        rw [hsplit]
        exact List.mem_append.mpr
          (Or.inl (List.mem_append.mpr (Or.inr (List.mem_cons_self _ _))))
      have hpw : 0 < p.weight := hw p hpmem
      apply exists_assignment_of_pairlist c items
        ((full.map fun i => (i, (1 : ℚ))) ++ [(p, rem / p.weight)]
          ++ (skipped.map fun i => (i, (0 : ℚ))))
      · rw [hsplit]
        simp [List.map_map, Function.comp_def]
      · intro q hq
        rcases List.mem_append.mp hq with hq | hq
        · rcases List.mem_append.mp hq with hq | hq
          · obtain ⟨i, _, rfl⟩ := List.mem_map.mp hq
            norm_num
          · rcases List.mem_singleton.mp hq with rfl
            constructor
            · exact div_nonneg (le_of_lt hrpos) (le_of_lt hpw)
            · exact le_of_lt ((div_lt_one hpw).mpr hrlt)
        · obtain ⟨i, _, rfl⟩ := List.mem_map.mp hq
          norm_num
      · rw [allocWeight_append, allocWeight_append, allocWeight_ones,
          allocWeight_zeros]
        have h1 : allocWeight [(p, rem / p.weight)] = rem := by
          simp only [allocWeight, List.map_cons, List.map_nil, List.sum_cons,
            List.sum_nil, add_zero]
          exact div_mul_cancel₀ rem (ne_of_gt hpw)
        rw [h1, hrem]
        ring_nf
        exact le_refl c
      · rw [allocValue_append, allocValue_append, allocValue_ones,
          allocValue_zeros, hval]
        have h1 : allocValue [(p, rem / p.weight)] = p.value * (rem / p.weight) := by
          simp only [allocValue, List.map_cons, List.map_nil, List.sum_cons,
            List.sum_nil, add_zero]
          ring
        rw [h1]
        simp

/-- C1 witness at the repository's own fractional test case
(`A(60,10), B(100,20), C(120,30)` with capacity 50). -/
theorem solve_optimal_witness :
    (∀ xs : List ℚ, xs.length
          = ([⟨"A", 60, 10⟩, ⟨"B", 100, 20⟩,
              (⟨"C", 120, 30⟩ : ReliefItem)] : List ReliefItem).length →
        (∀ q ∈ ([⟨"A", 60, 10⟩, ⟨"B", 100, 20⟩,
              (⟨"C", 120, 30⟩ : ReliefItem)] : List ReliefItem).zip xs,
            0 ≤ q.2 ∧ q.2 ≤ 1) →
        ((([⟨"A", 60, 10⟩, ⟨"B", 100, 20⟩,
              (⟨"C", 120, 30⟩ : ReliefItem)] : List ReliefItem).zip xs).map
            fun q => q.2 * q.1.weight).sum ≤ 50 →
        ((([⟨"A", 60, 10⟩, ⟨"B", 100, 20⟩,
              (⟨"C", 120, 30⟩ : ReliefItem)] : List ReliefItem).zip xs).map
            fun q => q.2 * q.1.value).sum
          ≤ ((⟨50⟩ : FractionalKnapsack).solve
              [⟨"A", 60, 10⟩, ⟨"B", 100, 20⟩, ⟨"C", 120, 30⟩]).1) ∧
    (∃ xs : List ℚ, xs.length
          = ([⟨"A", 60, 10⟩, ⟨"B", 100, 20⟩,
              (⟨"C", 120, 30⟩ : ReliefItem)] : List ReliefItem).length ∧
        (∀ q ∈ ([⟨"A", 60, 10⟩, ⟨"B", 100, 20⟩,
              (⟨"C", 120, 30⟩ : ReliefItem)] : List ReliefItem).zip xs,
            0 ≤ q.2 ∧ q.2 ≤ 1) ∧
        ((([⟨"A", 60, 10⟩, ⟨"B", 100, 20⟩,
              (⟨"C", 120, 30⟩ : ReliefItem)] : List ReliefItem).zip xs).map
            fun q => q.2 * q.1.weight).sum ≤ 50 ∧
        ((([⟨"A", 60, 10⟩, ⟨"B", 100, 20⟩,
              (⟨"C", 120, 30⟩ : ReliefItem)] : List ReliefItem).zip xs).map
            fun q => q.2 * q.1.value).sum
          = ((⟨50⟩ : FractionalKnapsack).solve
              [⟨"A", 60, 10⟩, ⟨"B", 100, 20⟩, ⟨"C", 120, 30⟩]).1) :=
  solve_optimal 50 [⟨"A", 60, 10⟩, ⟨"B", 100, 20⟩, ⟨"C", 120, 30⟩]
    (by norm_num) (by decide)

end Relief
